import Mathlib

/-!

Verification of the solid-attenuator calculator core
(`calculator.py`): the combinatorial blade-configuration search
(`in_out_combinations`, `find_configs`), the energy-grid / absorption-table
construction (`_ev_linear`, `get_absorption_table`) and the nearest-energy
lookup (`find_closest_energy`).

Modelling conventions:
* Python/numpy floats are modelled as rationals (`ℚ`).
* A `NaN` transmission entry (stuck/unavailable blade) is `none : Option ℚ`.
* A combination entry is a `Bool`: `true` models the inserted marker `1`,
  `false` models the removed marker `NaN`.
* Fallible operations (out-of-bounds numpy indexing raising `IndexError`)
  return `Option`.
-/

namespace SolidAttenuator

/-- All possible in/out state configurations of `n` attenuator blades, in the
order produced by `itertools.product([np.nan, 1], repeat=n)` (first blade
varies slowest, `NaN` before `1`). -/
def in_out_combinations : Nat → List (List Bool)
  | 0 => [[]]
  | n + 1 =>
      (in_out_combinations n).map (fun c => false :: c) ++
      (in_out_combinations n).map (fun c => true :: c)

/-- Elementwise product `t_i * c_i` of a transmission entry with a combination
entry, where `c_i ∈ {NaN, 1}`: `NaN * x = NaN`, `t * 1 = t`, `t * NaN = NaN`. -/
def mulElem : Option ℚ → Bool → Option ℚ
  | some t, true => some t
  | some _, false => none
  | none, _ => none

/-- `np.nanprod`: the product of a vector, treating `NaN` entries as `1`. -/
def nanprod (l : List (Option ℚ)) : ℚ :=
  l.foldl (fun acc x => match x with | some v => acc * v | none => acc) 1

/-- Achieved transmission of one combination:
`np.nanprod(all_transmissions * combo)`. -/
def T_of (ts : List (Option ℚ)) (c : List Bool) : ℚ :=
  nanprod (List.zipWith mulElem ts c)

/-- The table `T_table` of achieved transmissions of every combination, in
enumeration order (`np.nanprod(all_transmissions * config_table, axis=1)`). -/
def achievable (ts : List (Option ℚ)) : List ℚ :=
  (in_out_combinations ts.length).map (T_of ts)

/-- Comparison used by `argsort` on the first row of `configs`: order the
(transmission, index) pairs by transmission value. -/
def leFst (p q : ℚ × Nat) : Prop := p.1 ≤ q.1

instance : DecidableRel leFst := fun p q => inferInstanceAs (Decidable (p.1 ≤ q.1))

instance : IsTotal (ℚ × Nat) leFst := ⟨fun a b => le_total a.1 b.1⟩

instance : IsTrans (ℚ × Nat) leFst := ⟨fun _ _ _ h1 h2 => le_trans h1 h2⟩

/-- `T_config_table`: the rows `(transmission, original index)` sorted by
transmission value (`configs.T[sort_indices]`). -/
def sortedPairs (ts : List (Option ℚ)) : List (ℚ × Nat) :=
  List.insertionSort leFst ((achievable ts).zip (List.range (achievable ts).length))

/-- The sorted transmission column `T_config_table[:, 0]`. -/
def sortedT (ts : List (Option ℚ)) : List ℚ :=
  (sortedPairs ts).map Prod.fst

/-- `np.argmin(np.abs(xs - t))`: index of the first entry of `xs` minimizing
the absolute difference to `t`. -/
def argminAbs (t : ℚ) : List ℚ → Nat
  | [] => 0
  | [_] => 0
  | x :: y :: ys =>
      let j := argminAbs t (y :: ys)
      if |x - t| ≤ |(y :: ys).getD j 0 - t| then 0 else j + 1

/-- The index `i` in `find_configs`:
`np.argmin(np.abs(T_config_table[:, 0] - t_des))`. -/
def closestIdx (ts : List (Option ℚ)) (t : ℚ) : Nat :=
  argminAbs t (sortedT ts)

/-- `config_table[int(T_config_table[j, 1])]`: the combination stored at sorted
position `j`. -/
def comboAt (ts : List (Option ℚ)) (j : Nat) : List Bool :=
  (in_out_combinations ts.length).getD ((sortedPairs ts).getD j (0, 0)).2 []

/-- `closest = config_table[int(T_config_table[i, 1])]`. -/
def closestCombo (ts : List (Option ℚ)) (t : ℚ) : List Bool :=
  comboAt ts (closestIdx ts t)

/-- `T_closest = np.nanprod(all_transmissions * closest)`. -/
def T_closest (ts : List (Option ℚ)) (t : ℚ) : ℚ :=
  T_of ts (closestCombo ts t)

/-- Value of numpy's C cast of `NaN` to a 64-bit integer
(`closest.astype(np.int)` on a `NaN` entry), as produced on x86-64:
`INT64_MIN`. -/
def nanIntCast : ℤ := -(2 ^ 63)

/-- `np.nan_to_num(combo).astype(np.int)` on a float combination vector:
`NaN ↦ 0`, `1 ↦ 1`. -/
def states01 (c : List Bool) : List ℤ :=
  c.map (fun b => if b then 1 else 0)

/-- `np.nan_to_num(combo.astype(np.int))`: the `astype` runs first, so `NaN`
entries are C-cast to a garbage integer and `nan_to_num` (identity on an
integer array) does not repair them. -/
def statesIntCast (c : List Bool) : List ℤ :=
  c.map (fun b => if b then 1 else nanIntCast)

/-- The `Config` objects returned by `find_configs`. -/
structure Config where
  all_transmissions : List (Option ℚ)
  filter_states : List ℤ
  transmission : ℚ
deriving DecidableEq

/-- The first element (`config_bestLow` data) of the list returned by
`find_configs`, following the three-way branch on `T_closest` vs `t_des`. -/
def floorEntry (ts : List (Option ℚ)) (t_des : ℚ) : Config :=
  if T_closest ts t_des = t_des then
    ⟨ts, states01 (closestCombo ts t_des), T_closest ts t_des⟩
  else if T_closest ts t_des < t_des then
    ⟨ts, states01 (closestCombo ts t_des), T_closest ts t_des⟩
  else
    let idx := closestIdx ts t_des - 1
    ⟨ts, states01 (comboAt ts idx), T_of ts (comboAt ts idx)⟩

/-- The second element (`config_bestHigh` data) of the list returned by
`find_configs`.  In the `T_closest > t_des` branch the source applies
`closest.astype(np.int)` before `nan_to_num`, which is modelled by
`statesIntCast`. -/
def ceilEntry (ts : List (Option ℚ)) (t_des : ℚ) : Config :=
  if T_closest ts t_des = t_des then
    ⟨ts, states01 (closestCombo ts t_des), T_closest ts t_des⟩
  else if T_closest ts t_des < t_des then
    let idx := min (closestIdx ts t_des + 1) ((sortedPairs ts).length - 1)
    ⟨ts, states01 (comboAt ts idx), T_of ts (comboAt ts idx)⟩
  else
    ⟨ts, statesIntCast (closestCombo ts t_des), T_closest ts t_des⟩

/-- `find_configs(all_transmissions, t_des)`: the pair
`[best-low configuration, best-high configuration]`. -/
def find_configs (ts : List (Option ℚ)) (t_des : ℚ) : List Config :=
  [floorEntry ts t_des, ceilEntry ts t_des]

/-- The achieved-transmission product written as the spec words it:
`product = Π (t_i if (in combo_i and t_i is available) else 1)`. -/
def specProduct (ts : List (Option ℚ)) (c : List Bool) : ℚ :=
  ((ts.zip c).map (fun p =>
    match p.1, p.2 with
    | some v, true => v
    | _, _ => 1)).prod

/-- The (transmission, combination-entry) pairs of the available blades only:
unavailable blades removed from the enumeration entirely. -/
def availPairs (ts : List (Option ℚ)) (c : List Bool) : List (Option ℚ × Bool) :=
  (ts.zip c).filter (fun p => p.1.isSome)

/-- Python `int(x)`: truncation toward zero. -/
def pyInt (x : ℚ) : ℤ :=
  if 0 ≤ x then ⌊x⌋ else -⌊-x⌋

/-- `np.rint`: round to the nearest integer, halves to the nearest even
integer. -/
def roundHalfEven (x : ℚ) : ℤ :=
  if x - ⌊x⌋ < 1 / 2 then ⌊x⌋
  else if 1 / 2 < x - ⌊x⌋ then ⌊x⌋ + 1
  else if Even ⌊x⌋ then ⌊x⌋ else ⌊x⌋ + 1

/-- `np.around(x, dec)`: round to `dec` decimal places, halves to even. -/
def roundDec (dec : Nat) (x : ℚ) : ℚ :=
  (roundHalfEven (x * 10 ^ dec) : ℚ) / 10 ^ dec

/-- `num = int(ev_high - ev_low) * res + 1` from `_ev_linear`. -/
def evNum (ev_low ev_high : ℚ) (res : Nat) : Nat :=
  (pyInt (ev_high - ev_low)).toNat * res + 1

/-- `np.linspace(lo, hi, num)`: `num` evenly spaced points from `lo` to `hi`
inclusive (for `num = 1`, the single point `lo`). -/
def linspace (lo hi : ℚ) (num : Nat) : List ℚ :=
  (List.range num).map (fun (k : Nat) =>
    lo + ((k : Nat) : ℚ) * ((hi - lo) / ((num - 1 : Nat) : ℚ)))

/-- `_ev_linear(ev_low, ev_high, res, dec)`:
`np.around(np.linspace(ev_low, ev_high, num), dec)`. -/
def ev_linear (ev_low ev_high : ℚ) (res : Nat) (dec : Nat) : List ℚ :=
  (linspace ev_low ev_high (evNum ev_low ev_high res)).map (roundDec dec)

/-- `scipy.interpolate.interp1d(xs, ys)` evaluated at one point: piecewise
linear interpolation over the sample points (queries beyond the last sample
extend the final segment; the source raises there, which no claim exercises). -/
def interp1d : List (ℚ × ℚ) → ℚ → ℚ
  | [], _ => 0
  | [p], _ => p.2
  | p :: q :: rest, x =>
      if x ≤ q.1 then p.2 + (x - p.1) * (q.2 - p.2) / (q.1 - p.1)
      else interp1d (q :: rest) x

/-- `scipy.constants.Avogadro`. -/
def avogadro : ℚ := 602214076 * 10 ^ 15

/-- `scipy.constants.speed_of_light` (m/s). -/
def speed_of_light : ℚ := 299792458

/-- Planck constant in eV/Hz. -/
def planck_eV : ℚ := 4135667696 / 10 ^ 24

/-- Classical electron radius (m). -/
def electron_radius : ℚ := 28179403262 / 10 ^ 25

/-- `_fill_data_linear`: interpolate the raw `(energy, f2)` samples onto the
uniform grid.  The source hard-codes `res=10` in its call to `_ev_linear`. -/
def fill_data_linear (raw : List (ℚ × ℚ)) (ev_low ev_high : ℚ) : List ℚ :=
  (ev_linear ev_low ev_high 10 2).map (interp1d raw)

/-- `get_absorption_table(formula, ev_low, ev_high)`: rows
`(energy, f2, mu)` with `mu = 2*r0*h*c*f2/eV * density * (NA/atomic_weight)`. -/
def get_absorption_table (raw : List (ℚ × ℚ)) (ev_low ev_high : ℚ)
    (atomic_weight density : ℚ) : List (ℚ × ℚ × ℚ) :=
  let fs := fill_data_linear raw ev_low ev_high
  let eV_space := ev_linear ev_low ev_high 10 2
  (eV_space.zip fs).map (fun p =>
    (p.1, p.2,
      2 * electron_radius * planck_eV * speed_of_light * p.2 / p.1
        * density * (avogadro / atomic_weight)))

/-- Python list indexing `l[i]`: negative indices count from the end;
out-of-range indices raise (`none`). -/
def pyGet {α : Type} (l : List α) (i : ℤ) : Option α :=
  if 0 ≤ i then l.get? i.toNat
  else if (-i).toNat ≤ l.length then l.get? (l.length - (-i).toNat)
  else none

/-- `find_closest_energy(photon_energy, table)`: nearest tabulated energy and
its index.  `none` models a raised `IndexError` (empty table, or the computed
index escaping the clamp). -/
def find_closest_energy (photon_energy : ℚ) (table : List (ℚ × ℚ × ℚ)) :
    Option (ℚ × ℤ) :=
  match table.head?, table.getLast? with
  | some rowFirst, some rowLast =>
    let min_energy := rowFirst.1
    let max_energy := rowLast.1
    let energy_increment := (max_energy - min_energy) / (table.length : ℚ)
    let idx0 : ℤ := roundHalfEven ((photon_energy - min_energy) / energy_increment)
    let idx1 : ℤ := if idx0 < 0 then 0 else idx0
    let idx2 : ℤ := if idx1 > (table.length : ℤ) then -1 else idx1
    match pyGet table idx2 with
    | some row => some (row.1, idx2)
    | none => none
  | _, _ => none

theorem length_in_out_combinations (n : Nat) :
    (in_out_combinations n).length = 2 ^ n := by
  induction n with
  | zero => rfl
  | succ n ih => simp [in_out_combinations, ih, pow_succ]; ring

theorem mem_in_out_combinations (n : Nat) (c : List Bool) :
    c ∈ in_out_combinations n ↔ c.length = n := by
  induction n generalizing c with
  | zero => cases c <;> simp [in_out_combinations]
  | succ n ih =>
    cases c with
    | nil => simp [in_out_combinations, ih]
    | cons b c =>
      cases b <;> simp [in_out_combinations, ih]

theorem nanprod_foldl (l : List (Option ℚ)) (a : ℚ) :
    l.foldl (fun acc x => match x with | some v => acc * v | none => acc) a
      = a * nanprod l := by
  induction l generalizing a with
  | nil => simp [nanprod]
  | cons x l ih =>
    cases x with
    | some v =>
      rw [List.foldl_cons]
      show List.foldl _ (a * v) l = a * nanprod (some v :: l)
      rw [ih]
      have h2 : nanprod (some v :: l)
          = List.foldl (fun acc x => match x with | some v => acc * v | none => acc)
              (1 * v) l := rfl
      rw [h2, ih]
      ring
    | none =>
      rw [List.foldl_cons]
      show List.foldl _ a l = a * nanprod (none :: l)
      rw [ih]
      have h2 : nanprod (none :: l)
          = List.foldl (fun acc x => match x with | some v => acc * v | none => acc)
              1 l := rfl
      rw [h2, ih]
      ring

theorem nanprod_cons (x : Option ℚ) (l : List (Option ℚ)) :
    nanprod (x :: l) = x.getD 1 * nanprod l := by
  cases x with
  | some v =>
    have h : nanprod (some v :: l)
        = List.foldl (fun acc x => match x with | some v => acc * v | none => acc)
            (1 * v) l := rfl
    rw [h, nanprod_foldl]
    simp
  | none =>
    have h : nanprod (none :: l)
        = List.foldl (fun acc x => match x with | some v => acc * v | none => acc)
            1 l := rfl
    rw [h, nanprod_foldl]
    simp

theorem T_of_cons (o : Option ℚ) (ts : List (Option ℚ)) (b : Bool) (c : List Bool) :
    T_of (o :: ts) (b :: c) = (mulElem o b).getD 1 * T_of ts c := by
  show nanprod (mulElem o b :: List.zipWith mulElem ts c) = _
  rw [nanprod_cons]
  rfl

/-- C2: the achieved transmission of every combination is the product over
blades of `t_i` when blade `i` is in and available and `1` otherwise, and
unavailable blades may equivalently be removed from the enumeration
entirely. -/
theorem find_configs_product_semantics (ts : List (Option ℚ)) (c : List Bool) :
    T_of ts c = specProduct ts c ∧
    T_of ts c = T_of ((availPairs ts c).map Prod.fst) ((availPairs ts c).map Prod.snd) := by
  induction ts generalizing c with
  | nil =>
    simp [T_of, specProduct, availPairs, nanprod]
  | cons o ts ih =>
    cases c with
    | nil => simp [T_of, specProduct, availPairs, nanprod]
    | cons b c =>
      obtain ⟨ih1, ih2⟩ := ih c
      constructor
      · rw [T_of_cons, ih1]
        cases o <;> cases b <;> simp [specProduct, mulElem]
      · cases o with
        | none =>
          have h1 : T_of (none :: ts) (b :: c) = T_of ts c := by
            rw [T_of_cons]; simp [mulElem]
          have h2 : availPairs (none :: ts) (b :: c) = availPairs ts c := by
            simp [availPairs]
          rw [h1, h2, ih2]
        | some v =>
          have h2 : availPairs (some v :: ts) (b :: c)
              = (some v, b) :: availPairs ts c := by
            simp [availPairs]
          rw [h2]
          simp only [List.map_cons]
          rw [T_of_cons, T_of_cons, ih2]

theorem length_achievable (ts : List (Option ℚ)) :
    (achievable ts).length = 2 ^ ts.length := by
  simp [achievable, length_in_out_combinations]

theorem sortedPairs_perm (ts : List (Option ℚ)) :
    (sortedPairs ts).Perm ((achievable ts).zip (List.range (achievable ts).length)) :=
  List.perm_insertionSort leFst _

theorem length_sortedPairs (ts : List (Option ℚ)) :
    (sortedPairs ts).length = (achievable ts).length := by
  rw [sortedPairs, List.length_insertionSort, List.length_zip, List.length_range,
    min_self]

theorem length_sortedT (ts : List (Option ℚ)) :
    (sortedT ts).length = (achievable ts).length := by
  rw [sortedT, List.length_map, length_sortedPairs]

theorem sortedT_ne_nil (ts : List (Option ℚ)) : sortedT ts ≠ [] := by
  intro h
  have h1 := length_sortedT ts
  rw [h, length_achievable] at h1
  exact absurd h1.symm (Nat.pos_iff_ne_zero.mp (Nat.pos_pow_of_pos _ (by norm_num))).elim

theorem sortedT_sorted (ts : List (Option ℚ)) :
    List.Sorted (· ≤ ·) (sortedT ts) := by
  have h : List.Sorted leFst (sortedPairs ts) := List.sorted_insertionSort leFst _
  exact List.Pairwise.map Prod.fst (fun _ _ hab => hab) h

theorem mem_sortedPairs (ts : List (Option ℚ)) (p : ℚ × Nat)
    (hp : p ∈ sortedPairs ts) :
    p.2 < (achievable ts).length ∧ p.1 = (achievable ts).getD p.2 0 := by
  have hz : p ∈ (achievable ts).zip (List.range (achievable ts).length) :=
    (sortedPairs_perm ts).mem_iff.mp hp
  obtain ⟨k, hk, hkp⟩ := List.mem_iff_getElem.mp hz
  have hlen : ((achievable ts).zip (List.range (achievable ts).length)).length
      = (achievable ts).length := by
    rw [List.length_zip, List.length_range, min_self]
  have hk' : k < (achievable ts).length := by rw [hlen] at hk; exact hk
  have : ((achievable ts).zip (List.range (achievable ts).length))[k]
      = ((achievable ts)[k], k) := by
    rw [List.getElem_zip, List.getElem_range]
  rw [this] at hkp
  have h2 : p.2 = k := by rw [← hkp]
  have h1 : p.1 = (achievable ts)[k] := by rw [← hkp]
  subst h2
  refine ⟨hk', ?_⟩
  rw [h1, List.getD_eq_getElem?_getD, List.getElem?_eq_getElem hk']
  rfl

theorem getD_map_lt {α β : Type} (f : α → β) (l : List α) (j : Nat)
    (hj : j < l.length) (d : β) (d' : α) :
    (l.map f).getD j d = f (l.getD j d') := by
  rw [List.getD_eq_getElem?_getD, List.getElem?_map, List.getD_eq_getElem?_getD,
    List.getElem?_eq_getElem hj]
  rfl

theorem sortedT_getD (ts : List (Option ℚ)) (j : Nat)
    (hj : j < (sortedPairs ts).length) :
    (sortedT ts).getD j 0 = ((sortedPairs ts).getD j (0, 0)).1 := by
  rw [sortedT, getD_map_lt Prod.fst _ _ hj 0 (0, 0)]

theorem comboAt_T_of (ts : List (Option ℚ)) (j : Nat)
    (hj : j < (sortedPairs ts).length) :
    T_of ts (comboAt ts j) = (sortedT ts).getD j 0 := by
  have hmem : (sortedPairs ts).getD j (0, 0) ∈ sortedPairs ts := by
    rw [List.getD_eq_getElem?_getD, List.getElem?_eq_getElem hj]
    exact List.getElem_mem hj
  obtain ⟨hlt, hval⟩ := mem_sortedPairs ts _ hmem
  have hlt' : ((sortedPairs ts).getD j (0, 0)).2 < (in_out_combinations ts.length).length := by
    rw [achievable, List.length_map] at hlt
    exact hlt
  rw [sortedT_getD ts j hj, hval, achievable,
    getD_map_lt (T_of ts) _ _ hlt' 0 []]
  rfl

theorem mem_sortedT_iff (ts : List (Option ℚ)) (a : ℚ) :
    a ∈ sortedT ts ↔ a ∈ achievable ts := by
  have hmap : ((achievable ts).zip (List.range (achievable ts).length)).map Prod.fst
      = achievable ts :=
    List.map_fst_zip _ _ (by rw [List.length_range])
  have hperm : (sortedT ts).Perm (achievable ts) := by
    rw [sortedT, ← hmap]
    exact (sortedPairs_perm ts).map Prod.fst
  exact hperm.mem_iff

theorem sortedT_nodup (ts : List (Option ℚ)) (h : (achievable ts).Nodup) :
    (sortedT ts).Nodup := by
  have hmap : ((achievable ts).zip (List.range (achievable ts).length)).map Prod.fst
      = achievable ts :=
    List.map_fst_zip _ _ (by rw [List.length_range])
  have hperm : (sortedT ts).Perm (achievable ts) := by
    rw [sortedT, ← hmap]
    exact (sortedPairs_perm ts).map Prod.fst
  exact hperm.nodup_iff.mpr h

theorem sortedT_getD_mono (ts : List (Option ℚ)) {j k : Nat} (hjk : j ≤ k)
    (hk : k < (sortedT ts).length) :
    (sortedT ts).getD j 0 ≤ (sortedT ts).getD k 0 := by
  rcases Nat.lt_or_ge j k with h | h
  · have hj : j < (sortedT ts).length := lt_trans h hk
    rw [List.getD_eq_getElem?_getD, List.getElem?_eq_getElem hj,
      List.getD_eq_getElem?_getD, List.getElem?_eq_getElem hk]
    exact List.pairwise_iff_getElem.mp (sortedT_sorted ts) j k hj hk h
  · have : j = k := le_antisymm hjk h
    subst this
    exact le_refl _

theorem sortedT_getD_strict (ts : List (Option ℚ)) (hnd : (achievable ts).Nodup)
    {j k : Nat} (hjk : j < k) (hk : k < (sortedT ts).length) :
    (sortedT ts).getD j 0 < (sortedT ts).getD k 0 := by
  have hj : j < (sortedT ts).length := lt_trans hjk hk
  have hle : (sortedT ts).getD j 0 ≤ (sortedT ts).getD k 0 :=
    sortedT_getD_mono ts (le_of_lt hjk) hk
  rcases lt_or_eq_of_le hle with h | h
  · exact h
  · exfalso
    rw [List.getD_eq_getElem?_getD, List.getElem?_eq_getElem hj,
      List.getD_eq_getElem?_getD, List.getElem?_eq_getElem hk] at h
    have := ((sortedT_nodup ts hnd).getElem_inj_iff).mp h
    omega

theorem argminAbs_lt_length (t : ℚ) (l : List ℚ) (h : l ≠ []) :
    argminAbs t l < l.length := by
  induction l with
  | nil => exact absurd rfl h
  | cons x l ih =>
    cases l with
    | nil => simp [argminAbs]
    | cons y ys =>
      have hne : (y :: ys) ≠ [] := by simp
      have hlt := ih hne
      rw [argminAbs]
      split
      · simp
      · simpa using Nat.succ_lt_succ hlt

theorem argminAbs_min (t : ℚ) (l : List ℚ) (j : Nat) (hj : j < l.length) :
    |l.getD (argminAbs t l) 0 - t| ≤ |l.getD j 0 - t| := by
  induction l generalizing j with
  | nil => simp at hj
  | cons x l ih =>
    cases l with
    | nil =>
      have hj0 : j = 0 := by simp at hj; omega
      subst hj0
      simp [argminAbs]
    | cons y ys =>
      rw [argminAbs]
      split
      · next hcond =>
        cases j with
        | zero => simp
        | succ k =>
          have hk : k < (y :: ys).length := by simpa using hj
          calc |(x :: y :: ys).getD 0 0 - t| = |x - t| := by simp
            _ ≤ |(y :: ys).getD (argminAbs t (y :: ys)) 0 - t| := hcond
            _ ≤ |(y :: ys).getD k 0 - t| := ih k hk
            _ = |(x :: y :: ys).getD (k + 1) 0 - t| := by simp
      · next hcond =>
        push_neg at hcond
        cases j with
        | zero =>
          calc |(x :: y :: ys).getD (argminAbs t (y :: ys) + 1) 0 - t|
              = |(y :: ys).getD (argminAbs t (y :: ys)) 0 - t| := by simp
            _ ≤ |x - t| := le_of_lt hcond
            _ = |(x :: y :: ys).getD 0 0 - t| := by simp
        | succ k =>
          have hk : k < (y :: ys).length := by simpa using hj
          calc |(x :: y :: ys).getD (argminAbs t (y :: ys) + 1) 0 - t|
              = |(y :: ys).getD (argminAbs t (y :: ys)) 0 - t| := by simp
            _ ≤ |(y :: ys).getD k 0 - t| := ih k hk
            _ = |(x :: y :: ys).getD (k + 1) 0 - t| := by simp

theorem argminAbs_first (t : ℚ) (l : List ℚ) (j : Nat) (hj : j < argminAbs t l) :
    |l.getD (argminAbs t l) 0 - t| < |l.getD j 0 - t| := by
  induction l generalizing j with
  | nil => simp [argminAbs] at hj
  | cons x l ih =>
    cases l with
    | nil => simp [argminAbs] at hj
    | cons y ys =>
      rw [argminAbs] at hj ⊢
      split
      · next hcond => rw [if_pos hcond] at hj; omega
      · next hcond =>
        rw [if_neg hcond] at hj
        push_neg at hcond
        cases j with
        | zero =>
          calc |(x :: y :: ys).getD (argminAbs t (y :: ys) + 1) 0 - t|
              = |(y :: ys).getD (argminAbs t (y :: ys)) 0 - t| := by simp
            _ < |x - t| := hcond
            _ = |(x :: y :: ys).getD 0 0 - t| := by simp
        | succ k =>
          have hk : k < argminAbs t (y :: ys) := by omega
          calc |(x :: y :: ys).getD (argminAbs t (y :: ys) + 1) 0 - t|
              = |(y :: ys).getD (argminAbs t (y :: ys)) 0 - t| := by simp
            _ < |(y :: ys).getD k 0 - t| := ih k hk
            _ = |(x :: y :: ys).getD (k + 1) 0 - t| := by simp

theorem closestIdx_lt (ts : List (Option ℚ)) (t : ℚ) :
    closestIdx ts t < (sortedT ts).length :=
  argminAbs_lt_length t (sortedT ts) (sortedT_ne_nil ts)

theorem closestIdx_lt_pairs (ts : List (Option ℚ)) (t : ℚ) :
    closestIdx ts t < (sortedPairs ts).length := by
  have h := closestIdx_lt ts t
  rw [sortedT, List.length_map] at h
  exact h

theorem T_closest_getD (ts : List (Option ℚ)) (t : ℚ) :
    T_closest ts t = (sortedT ts).getD (closestIdx ts t) 0 :=
  comboAt_T_of ts (closestIdx ts t) (closestIdx_lt_pairs ts t)

theorem T_closest_min (ts : List (Option ℚ)) (t : ℚ) (v : ℚ)
    (hv : v ∈ achievable ts) :
    |T_closest ts t - t| ≤ |v - t| := by
  have hv' : v ∈ sortedT ts := (mem_sortedT_iff ts v).mpr hv
  obtain ⟨k, hk, hkv⟩ := List.mem_iff_getElem.mp hv'
  have hgd : (sortedT ts).getD k 0 = v := by
    rw [List.getD_eq_getElem?_getD, List.getElem?_eq_getElem hk, hkv]
    rfl
  rw [T_closest_getD, ← hgd]
  exact argminAbs_min t (sortedT ts) k hk

theorem T_closest_tie (ts : List (Option ℚ)) (t : ℚ) (v : ℚ)
    (hv : v ∈ achievable ts) (htie : |v - t| = |T_closest ts t - t|) :
    T_closest ts t ≤ v := by
  have hv' : v ∈ sortedT ts := (mem_sortedT_iff ts v).mpr hv
  obtain ⟨k, hk, hkv⟩ := List.mem_iff_getElem.mp hv'
  have hgd : (sortedT ts).getD k 0 = v := by
    rw [List.getD_eq_getElem?_getD, List.getElem?_eq_getElem hk, hkv]
    rfl
  rcases Nat.lt_or_ge k (closestIdx ts t) with hlt | hge
  · exfalso
    have := argminAbs_first t (sortedT ts) k hlt
    change |(sortedT ts).getD (closestIdx ts t) 0 - t| < |(sortedT ts).getD k 0 - t| at this
    rw [← T_closest_getD, hgd] at this
    rw [htie] at this
    exact lt_irrefl _ this
  · rw [T_closest_getD, ← hgd]
    exact sortedT_getD_mono ts hge hk

theorem abs_ite (a : ℚ) : |a| = if a < 0 then -a else a := by
  rcases lt_or_ge a 0 with h | h
  · rw [if_pos h, abs_of_neg h]
  · rw [if_neg (not_lt_of_ge h), abs_of_nonneg h]

theorem floorEntry_transmission (ts : List (Option ℚ)) (t : ℚ) :
    (floorEntry ts t).transmission =
      if T_closest ts t = t then T_closest ts t
      else if T_closest ts t < t then T_closest ts t
      else T_of ts (comboAt ts (closestIdx ts t - 1)) := by
  unfold floorEntry
  split_ifs <;> rfl

theorem ceilEntry_transmission (ts : List (Option ℚ)) (t : ℚ) :
    (ceilEntry ts t).transmission =
      if T_closest ts t = t then T_closest ts t
      else if T_closest ts t < t then
        T_of ts (comboAt ts (min (closestIdx ts t + 1) ((sortedPairs ts).length - 1)))
      else T_closest ts t := by
  unfold ceilEntry
  split_ifs <;> rfl

theorem sortedPairs_length_pos (ts : List (Option ℚ)) :
    0 < (sortedPairs ts).length := by
  rw [length_sortedPairs, length_achievable]
  positivity

/-- C8: if the target exactly equals some achievable product, `find_configs`
returns the same configuration twice (floor = ceiling) and its transmission
equals the target. -/
theorem find_configs_exact_match (ts : List (Option ℚ)) (t : ℚ)
    (_hne : ts ≠ []) (ht : t ∈ achievable ts) :
    find_configs ts t = [floorEntry ts t, floorEntry ts t] ∧
    (floorEntry ts t).transmission = t := by
  have h0 : |T_closest ts t - t| ≤ |t - t| := T_closest_min ts t t ht
  rw [sub_self, abs_zero] at h0
  have hT : T_closest ts t = t := by
    have h1 := abs_nonneg (T_closest ts t - t)
    have heq : T_closest ts t - t = 0 := abs_eq_zero.mp (le_antisymm h0 h1)
    linarith
  have hf : floorEntry ts t = ⟨ts, states01 (closestCombo ts t), T_closest ts t⟩ := by
    unfold floorEntry
    rw [if_pos hT]
  have hc : ceilEntry ts t = ⟨ts, states01 (closestCombo ts t), T_closest ts t⟩ := by
    unfold ceilEntry
    rw [if_pos hT]
  constructor
  · show [floorEntry ts t, ceilEntry ts t] = [floorEntry ts t, floorEntry ts t]
    rw [hc, hf]
  · rw [hf]
    exact hT

theorem find_configs_exact_match_witness :
    find_configs [some (1/2)] (1/2)
      = [floorEntry [some (1/2)] (1/2), floorEntry [some (1/2)] (1/2)] ∧
    (floorEntry [some (1/2)] (1/2)).transmission = 1/2 :=
  find_configs_exact_match [some (1/2)] (1/2) (by decide)
    (by norm_num [achievable, in_out_combinations, T_of, nanprod, mulElem])

/-- C10: among achievable transmissions at equal minimum distance from the
target, `find_configs` selects the tied candidate with the lower transmission
(the first in ascending sorted order) as the closest configuration. -/
theorem find_configs_tie_break (ts : List (Option ℚ)) (t : ℚ)
    (_hne : ts ≠ []) (v : ℚ) (hv : v ∈ achievable ts) :
    |T_closest ts t - t| ≤ |v - t| ∧
    (|v - t| = |T_closest ts t - t| → T_closest ts t ≤ v) :=
  ⟨T_closest_min ts t v hv, fun h => T_closest_tie ts t v hv h⟩

theorem find_configs_tie_break_witness :
    |T_closest [some (1/2)] (3/4) - 3/4| ≤ |1 - 3/4| ∧
    (|1 - 3/4| = |T_closest [some (1/2)] (3/4) - 3/4| →
      T_closest [some (1/2)] (3/4) ≤ 1) :=
  find_configs_tie_break [some (1/2)] (3/4) (by decide) 1
    (by norm_num [achievable, in_out_combinations, T_of, nanprod, mulElem])

/-- C9 (amended): the two entries returned by `find_configs` always satisfy
`floor.transmission ≤ ceiling.transmission`; the transmissions are equal on
the exact-match branch and whenever the neighbour index clamps (equality can
also occur when distinct sorted positions carry duplicated transmission
values). -/
theorem find_configs_floor_le_ceil (ts : List (Option ℚ)) (t : ℚ)
    (_hne : ts ≠ []) :
    find_configs ts t = [floorEntry ts t, ceilEntry ts t] ∧
    (floorEntry ts t).transmission ≤ (ceilEntry ts t).transmission ∧
    (T_closest ts t = t →
      (floorEntry ts t).transmission = (ceilEntry ts t).transmission) ∧
    (T_closest ts t < t → closestIdx ts t = (sortedPairs ts).length - 1 →
      (floorEntry ts t).transmission = (ceilEntry ts t).transmission) ∧
    (t < T_closest ts t → closestIdx ts t = 0 →
      (floorEntry ts t).transmission = (ceilEntry ts t).transmission) := by
  have hilt := closestIdx_lt_pairs ts t
  have hiltT := closestIdx_lt ts t
  have hTi := T_closest_getD ts t
  refine ⟨rfl, ?_, ?_, ?_, ?_⟩
  · rcases lt_trichotomy (T_closest ts t) t with hlt | heq | hgt
    · have hne' : T_closest ts t ≠ t := ne_of_lt hlt
      rw [floorEntry_transmission, ceilEntry_transmission, if_neg hne', if_neg hne',
        if_pos hlt, if_pos hlt]
      set idx := min (closestIdx ts t + 1) ((sortedPairs ts).length - 1) with hidx
      have hidxlt : idx < (sortedPairs ts).length := by
        have := sortedPairs_length_pos ts
        omega
      have hidxltT : idx < (sortedT ts).length := by
        rw [sortedT, List.length_map]
        exact hidxlt
      have hile : closestIdx ts t ≤ idx := by omega
      rw [comboAt_T_of ts idx hidxlt, hTi]
      exact sortedT_getD_mono ts hile hidxltT
    · rw [floorEntry_transmission, ceilEntry_transmission, if_pos heq, if_pos heq]
    · have hne' : T_closest ts t ≠ t := ne_of_gt hgt
      have hnlt : ¬ T_closest ts t < t := not_lt_of_gt hgt
      rw [floorEntry_transmission, ceilEntry_transmission, if_neg hne', if_neg hne',
        if_neg hnlt, if_neg hnlt]
      have hidxlt : closestIdx ts t - 1 < (sortedPairs ts).length := by omega
      rw [comboAt_T_of ts _ hidxlt, hTi]
      exact sortedT_getD_mono ts (by omega) hiltT
  · intro heq
    rw [floorEntry_transmission, ceilEntry_transmission, if_pos heq, if_pos heq]
  · intro hlt hclamp
    have hne' : T_closest ts t ≠ t := ne_of_lt hlt
    rw [floorEntry_transmission, ceilEntry_transmission, if_neg hne', if_neg hne',
      if_pos hlt, if_pos hlt]
    have hmin : min (closestIdx ts t + 1) ((sortedPairs ts).length - 1)
        = closestIdx ts t := by omega
    rw [hmin, hTi, comboAt_T_of ts _ hilt]
  · intro hgt hclamp
    have hne' : T_closest ts t ≠ t := ne_of_gt hgt
    have hnlt : ¬ T_closest ts t < t := not_lt_of_gt hgt
    rw [floorEntry_transmission, ceilEntry_transmission, if_neg hne', if_neg hne',
      if_neg hnlt, if_neg hnlt]
    rw [hclamp, hTi, comboAt_T_of ts _ (by omega), hclamp]

theorem find_configs_floor_le_ceil_witness :
    find_configs [some (1/2)] (3/5)
      = [floorEntry [some (1/2)] (3/5), ceilEntry [some (1/2)] (3/5)] ∧
    (floorEntry [some (1/2)] (3/5)).transmission
      ≤ (ceilEntry [some (1/2)] (3/5)).transmission ∧
    (T_closest [some (1/2)] (3/5) = 3/5 →
      (floorEntry [some (1/2)] (3/5)).transmission
        = (ceilEntry [some (1/2)] (3/5)).transmission) ∧
    (T_closest [some (1/2)] (3/5) < 3/5 →
      closestIdx [some (1/2)] (3/5) = (sortedPairs [some (1/2)]).length - 1 →
      (floorEntry [some (1/2)] (3/5)).transmission
        = (ceilEntry [some (1/2)] (3/5)).transmission) ∧
    (3/5 < T_closest [some (1/2)] (3/5) →
      closestIdx [some (1/2)] (3/5) = 0 →
      (floorEntry [some (1/2)] (3/5)).transmission
        = (ceilEntry [some (1/2)] (3/5)).transmission) :=
  find_configs_floor_le_ceil [some (1/2)] (3/5) (by decide)

/-- C9 counterexample: with duplicated achievable transmissions the two
returned entries can have equal transmissions while being different
configurations, with neither an index clamp nor an exact match involved. -/
theorem find_configs_equal_transmission_distinct_entries :
    (find_configs [some (1/2), some (1/2)] (3/5)).map Config.transmission
      = [1/2, 1/2] ∧
    (floorEntry [some (1/2), some (1/2)] (3/5)).filter_states
      ≠ (ceilEntry [some (1/2), some (1/2)] (3/5)).filter_states := by
  norm_num [find_configs, floorEntry, ceilEntry, T_closest, closestCombo, comboAt,
    closestIdx, sortedPairs, sortedT, achievable, in_out_combinations, T_of,
    nanprod, mulElem, argminAbs, List.insertionSort, List.orderedInsert, leFst,
    states01, statesIntCast, nanIntCast, abs_ite]

theorem achievable_getD_exists (ts : List (Option ℚ)) (v : ℚ)
    (hv : v ∈ achievable ts) :
    ∃ k, k < (sortedT ts).length ∧ (sortedT ts).getD k 0 = v := by
  have hv' := (mem_sortedT_iff ts v).mpr hv
  obtain ⟨k, hk, hkv⟩ := List.mem_iff_getElem.mp hv'
  refine ⟨k, hk, ?_⟩
  rw [List.getD_eq_getElem?_getD, List.getElem?_eq_getElem hk, hkv]
  rfl

/-- C1 (amended): for a transmission vector whose achievable transmissions are
pairwise distinct and a target strictly inside the achievable range,
`find_configs` returns exactly one floor and one ceiling entry with
`floor.transmission ≤ t_des ≤ ceiling.transmission`, and no achievable
transmission lies strictly between the two (they are adjacent in the sorted
achievable order). -/
theorem find_configs_monotonic_bracket (ts : List (Option ℚ)) (t : ℚ)
    (hnd : (achievable ts).Nodup)
    (hlo : ∃ a ∈ achievable ts, a < t) (hhi : ∃ b ∈ achievable ts, t < b) :
    find_configs ts t = [floorEntry ts t, ceilEntry ts t] ∧
    (floorEntry ts t).transmission ≤ t ∧
    t ≤ (ceilEntry ts t).transmission ∧
    ∀ v ∈ achievable ts,
      ¬((floorEntry ts t).transmission < v ∧
        v < (ceilEntry ts t).transmission) := by
  have hilt := closestIdx_lt_pairs ts t
  have hiltT := closestIdx_lt ts t
  have hTi := T_closest_getD ts t
  have hLen : (sortedT ts).length = (sortedPairs ts).length := by
    rw [sortedT, List.length_map]
  rcases lt_trichotomy (T_closest ts t) t with hlt | heq | hgt
  · -- closest value strictly below the target
    have hne' : T_closest ts t ≠ t := ne_of_lt hlt
    obtain ⟨b, hbmem, hbt⟩ := hhi
    obtain ⟨kb, hkb, hkbv⟩ := achievable_getD_exists ts b hbmem
    have hltL : (sortedT ts).getD (closestIdx ts t) 0 < t := by
      rw [← hTi]; exact hlt
    have hin1 : closestIdx ts t < (sortedPairs ts).length - 1 := by
      by_contra h
      have hieq : closestIdx ts t = (sortedPairs ts).length - 1 := by omega
      have hkble : kb ≤ closestIdx ts t := by omega
      have hble : (sortedT ts).getD kb 0 ≤ (sortedT ts).getD (closestIdx ts t) 0 :=
        sortedT_getD_mono ts hkble hiltT
      rw [hkbv] at hble
      linarith
    have hmin : min (closestIdx ts t + 1) ((sortedPairs ts).length - 1)
        = closestIdx ts t + 1 := by omega
    have hi1T : closestIdx ts t + 1 < (sortedT ts).length := by omega
    have hf : (floorEntry ts t).transmission
        = (sortedT ts).getD (closestIdx ts t) 0 := by
      rw [floorEntry_transmission, if_neg hne', if_pos hlt, hTi]
    have hc : (ceilEntry ts t).transmission
        = (sortedT ts).getD (closestIdx ts t + 1) 0 := by
      rw [ceilEntry_transmission, if_neg hne', if_pos hlt, hmin,
        comboAt_T_of ts _ (by omega)]
    have hstep : (sortedT ts).getD (closestIdx ts t) 0
        < (sortedT ts).getD (closestIdx ts t + 1) 0 :=
      sortedT_getD_strict ts hnd (Nat.lt_succ_self _) hi1T
    have hmin2 : |(sortedT ts).getD (closestIdx ts t) 0 - t|
        ≤ |(sortedT ts).getD (closestIdx ts t + 1) 0 - t| :=
      argminAbs_min t (sortedT ts) (closestIdx ts t + 1) hi1T
    have htlt : t < (sortedT ts).getD (closestIdx ts t + 1) 0 := by
      by_contra h
      push_neg at h
      rw [abs_of_nonpos (by linarith), abs_of_nonpos (by linarith)] at hmin2
      linarith
    refine ⟨rfl, ?_, ?_, ?_⟩
    · rw [hf]; exact le_of_lt hltL
    · rw [hc]; exact le_of_lt htlt
    · intro v hv hcon
      obtain ⟨h1, h2⟩ := hcon
      rw [hf] at h1
      rw [hc] at h2
      obtain ⟨k, hk, hkv⟩ := achievable_getD_exists ts v hv
      rcases le_or_lt k (closestIdx ts t) with hki | hki
      · have := sortedT_getD_mono ts hki hiltT
        rw [hkv] at this
        linarith
      · have := sortedT_getD_mono ts hki hk
        rw [hkv] at this
        linarith
  · -- exact match
    have hf : (floorEntry ts t).transmission = t := by
      rw [floorEntry_transmission, if_pos heq]; exact heq
    have hc : (ceilEntry ts t).transmission = t := by
      rw [ceilEntry_transmission, if_pos heq]; exact heq
    refine ⟨rfl, le_of_eq hf, le_of_eq hc.symm, ?_⟩
    intro v hv hcon
    obtain ⟨h1, h2⟩ := hcon
    rw [hf] at h1
    rw [hc] at h2
    linarith
  · -- closest value strictly above the target
    have hne' : T_closest ts t ≠ t := ne_of_gt hgt
    have hnlt : ¬ T_closest ts t < t := not_lt_of_gt hgt
    obtain ⟨a, hamem, hat⟩ := hlo
    obtain ⟨ka, hka, hkav⟩ := achievable_getD_exists ts a hamem
    have hgtL : t < (sortedT ts).getD (closestIdx ts t) 0 := by
      rw [← hTi]; exact hgt
    have hi0 : 0 < closestIdx ts t := by
      by_contra h
      push_neg at h
      have hle : (sortedT ts).getD (closestIdx ts t) 0 ≤ (sortedT ts).getD ka 0 :=
        sortedT_getD_mono ts (by omega) hka
      rw [hkav] at hle
      linarith
    have hf : (floorEntry ts t).transmission
        = (sortedT ts).getD (closestIdx ts t - 1) 0 := by
      rw [floorEntry_transmission, if_neg hne', if_neg hnlt,
        comboAt_T_of ts _ (by omega)]
    have hc : (ceilEntry ts t).transmission
        = (sortedT ts).getD (closestIdx ts t) 0 := by
      rw [ceilEntry_transmission, if_neg hne', if_neg hnlt, hTi]
    have hi1T : closestIdx ts t - 1 < (sortedT ts).length := by omega
    have hstep : (sortedT ts).getD (closestIdx ts t - 1) 0
        < (sortedT ts).getD (closestIdx ts t) 0 :=
      sortedT_getD_strict ts hnd (by omega) hiltT
    have hmin2 : |(sortedT ts).getD (closestIdx ts t) 0 - t|
        ≤ |(sortedT ts).getD (closestIdx ts t - 1) 0 - t| :=
      argminAbs_min t (sortedT ts) (closestIdx ts t - 1) hi1T
    have hflo : (sortedT ts).getD (closestIdx ts t - 1) 0 ≤ t := by
      by_contra h
      push_neg at h
      rw [abs_of_nonneg (by linarith), abs_of_nonneg (by linarith)] at hmin2
      linarith
    refine ⟨rfl, ?_, ?_, ?_⟩
    · rw [hf]; exact hflo
    · rw [hc]; exact le_of_lt hgtL
    · intro v hv hcon
      obtain ⟨h1, h2⟩ := hcon
      rw [hf] at h1
      rw [hc] at h2
      obtain ⟨k, hk, hkv⟩ := achievable_getD_exists ts v hv
      rcases le_or_lt k (closestIdx ts t - 1) with hki | hki
      · have := sortedT_getD_mono ts hki hi1T
        rw [hkv] at this
        linarith
      · have : (sortedT ts).getD (closestIdx ts t) 0 ≤ (sortedT ts).getD k 0 :=
          sortedT_getD_mono ts (by omega) hk
        rw [hkv] at this
        linarith

theorem find_configs_monotonic_bracket_witness :
    find_configs [some (1/2)] (3/5)
      = [floorEntry [some (1/2)] (3/5), ceilEntry [some (1/2)] (3/5)] ∧
    (floorEntry [some (1/2)] (3/5)).transmission ≤ 3/5 ∧
    3/5 ≤ (ceilEntry [some (1/2)] (3/5)).transmission ∧
    ∀ v ∈ achievable [some (1/2)],
      ¬((floorEntry [some (1/2)] (3/5)).transmission < v ∧
        v < (ceilEntry [some (1/2)] (3/5)).transmission) :=
  find_configs_monotonic_bracket [some (1/2)] (3/5)
    (by norm_num [achievable, in_out_combinations, T_of, nanprod, mulElem])
    (by norm_num [achievable, in_out_combinations, T_of, nanprod, mulElem])
    (by norm_num [achievable, in_out_combinations, T_of, nanprod, mulElem])

/-- C1 counterexample: with duplicated achievable transmissions
(`[0.5, 0.5]`, achievable set `{1, 0.5, 0.5, 0.25}`) and target `0.6`
strictly inside the achievable range, the returned ceiling transmission is
`0.5 < 0.6`, violating `t_des ≤ ceiling.transmission`. -/
theorem find_configs_bracket_fails_on_duplicates :
    (∃ a ∈ achievable [some (1/2), some (1/2)], a < 3/5) ∧
    (∃ b ∈ achievable [some (1/2), some (1/2)], 3/5 < b) ∧
    (ceilEntry [some (1/2), some (1/2)] (3/5)).transmission < 3/5 := by
  norm_num [find_configs, floorEntry, ceilEntry, T_closest, closestCombo, comboAt,
    closestIdx, sortedPairs, sortedT, achievable, in_out_combinations, T_of,
    nanprod, mulElem, argminAbs, List.insertionSort, List.orderedInsert, leFst,
    states01, statesIntCast, nanIntCast, abs_ite]

/-- C5 (amended): `find_configs` on an empty transmissions vector raises no
error at all: it silently returns two `Config` entries with empty
`filter_states` and transmission `1` (the empty product), for every target. -/
theorem find_configs_empty_vector (t : ℚ) :
    find_configs [] t = [⟨[], [], 1⟩, ⟨[], [], 1⟩] := by
  have hf : floorEntry [] t = ⟨[], [], 1⟩ := by
    unfold floorEntry
    split_ifs <;> rfl
  have hc : ceilEntry [] t = ⟨[], [], 1⟩ := by
    unfold ceilEntry
    split_ifs <;> rfl
  rw [find_configs, hf, hc]

/-- C5 counterexample: at the concrete target `0.5` the empty vector produces
a normal silent result (transmission `1`, no failure of any kind), not a
`NoBladesError`. -/
theorem find_configs_empty_no_error :
    find_configs [] (1/2) = [⟨[], [], 1⟩, ⟨[], [], 1⟩] := by
  norm_num [find_configs, floorEntry, ceilEntry, T_closest, closestCombo, comboAt,
    closestIdx, sortedPairs, sortedT, achievable, in_out_combinations, T_of,
    nanprod, mulElem, argminAbs, List.insertionSort, List.orderedInsert, leFst,
    states01, statesIntCast]

/-- C6 (amended): `in_out_combinations` performs no blade-count guard: for
every `n` it succeeds, returning the complete enumeration of all `2 ^ n`
combinations (every length-`n` in/out vector occurs). -/
theorem in_out_combinations_no_guard (n : Nat) :
    (in_out_combinations n).length = 2 ^ n ∧
    ∀ c : List Bool, c.length = n → c ∈ in_out_combinations n :=
  ⟨length_in_out_combinations n, fun c hc => (mem_in_out_combinations n c).mpr hc⟩

theorem in_out_combinations_no_guard_witness :
    (in_out_combinations 2).length = 2 ^ 2 ∧
    [true, false] ∈ in_out_combinations 2 :=
  ⟨(in_out_combinations_no_guard 2).1,
    (in_out_combinations_no_guard 2).2 [true, false] (by decide)⟩

/-- C6 counterexample: at `n = 25` (beyond the claimed `~24` guard threshold)
the enumeration still succeeds in full, producing all `2 ^ 25` combinations
instead of failing fast with a `TooManyBlades` error. -/
theorem in_out_combinations_at_25 :
    (in_out_combinations 25).length = 2 ^ 25 :=
  length_in_out_combinations 25

/-- C3: at `all_transmissions = [0.5, 0.25]`, `t_des = 0.2` the direction
logic takes the `T_closest > t_des` branch and the ceiling configuration's
`filter_states` contains the C cast of `NaN` to `int64` (`INT64_MIN`), which
is neither 0 nor 1 — `closest.astype(np.int)` runs before `nan_to_num`. -/
theorem find_configs_nan_cast_garbage :
    (find_configs [some (1/2), some (1/4)] (1/5)).map Config.filter_states
      = [[1, 1], [nanIntCast, 1]] ∧ nanIntCast ≠ 0 ∧ nanIntCast ≠ 1 := by
  norm_num [find_configs, floorEntry, ceilEntry, T_closest, closestCombo, comboAt,
    closestIdx, sortedPairs, sortedT, achievable, in_out_combinations, T_of,
    nanprod, mulElem, argminAbs, List.insertionSort, List.orderedInsert, leFst,
    states01, statesIntCast, nanIntCast, abs_ite]

/-- C4: on the two-row table with energies `0` and `1`, looking up the
maximum tabulated energy `1` computes raw index
`rint((1-0)/((1-0)/2)) = 2 = len(table)`, which escapes the
`> len(table)` clamp, so `table[2]` raises `IndexError` (modelled `none`)
instead of returning the last tabulated energy. -/
theorem find_closest_energy_crashes_at_max :
    find_closest_energy 1 [(0, 0, 0), (1, 0, 0)] = none := by
  norm_num [find_closest_energy, pyGet, roundHalfEven, Int.toNat,
    List.getElem?_cons_succ, List.getElem?_cons_zero, List.getElem?_nil]

theorem getD_range (num k : Nat) (hk : k < num) :
    (List.range num).getD k 0 = k := by
  have hk' : k < (List.range num).length := by simpa using hk
  rw [List.getD_eq_getElem?_getD, List.getElem?_eq_getElem hk']
  simp

theorem linspace_getD (lo hi : ℚ) (num k : Nat) (hk : k < num) :
    (linspace lo hi num).getD k 0
      = lo + k * ((hi - lo) / ((num - 1 : Nat) : ℚ)) := by
  have hk2 : k < (List.range num).length := by rw [List.length_range]; exact hk
  rw [linspace, getD_map_lt _ _ _ hk2 0 0, getD_range num k hk]

/-- C7 (amended): for `ev_low < ev_high` the energy grid consists of exactly
`int(ev_high - ev_low) * res + 1` points (`int` truncates the difference
before multiplying by the resolution), the absorption table has the same
length (with the hard-coded `res = 10`), and the underlying pre-rounding
linear grid is strictly increasing and uniformly spaced with step
`(ev_high - ev_low) / (num - 1)`. -/
theorem ev_linear_grid (lo hi : ℚ) (res : Nat) (hlh : lo < hi) :
    (ev_linear lo hi res 2).length = (pyInt (hi - lo)).toNat * res + 1 ∧
    (∀ (raw : List (ℚ × ℚ)) (aw d : ℚ),
      (get_absorption_table raw lo hi aw d).length
        = (pyInt (hi - lo)).toNat * 10 + 1) ∧
    (∀ j k, j < k → k < evNum lo hi res →
      (linspace lo hi (evNum lo hi res)).getD j 0
        < (linspace lo hi (evNum lo hi res)).getD k 0) ∧
    (∀ k, k + 1 < evNum lo hi res →
      (linspace lo hi (evNum lo hi res)).getD (k + 1) 0
        - (linspace lo hi (evNum lo hi res)).getD k 0
        = (hi - lo) / ((evNum lo hi res - 1 : Nat) : ℚ)) := by
  refine ⟨?_, ?_, ?_, ?_⟩
  · rw [ev_linear, List.length_map, linspace, List.length_map, List.length_range]
    rfl
  · intro raw aw d
    simp only [get_absorption_table, fill_data_linear, ev_linear, List.length_map,
      List.length_zip, linspace, List.length_range, min_self]
    rfl
  · intro j k hjk hk
    have hnum : 2 ≤ evNum lo hi res := by omega
    rw [linspace_getD lo hi _ j (by omega), linspace_getD lo hi _ k hk]
    have hden : (0 : ℚ) < ((evNum lo hi res - 1 : Nat) : ℚ) := by
      have h1 : 0 < evNum lo hi res - 1 := by omega
      exact_mod_cast h1
    have hs : 0 < (hi - lo) / ((evNum lo hi res - 1 : Nat) : ℚ) :=
      div_pos (by linarith) hden
    have hjk' : (j : ℚ) < (k : ℚ) := by exact_mod_cast hjk
    have := mul_lt_mul_of_pos_right hjk' hs
    linarith
  · intro k hk
    rw [linspace_getD lo hi _ (k + 1) hk, linspace_getD lo hi _ k (by omega)]
    push_cast
    ring

theorem ev_linear_grid_witness :
    (ev_linear 0 2 10 2).length = (pyInt (2 - 0)).toNat * 10 + 1 ∧
    (∀ (raw : List (ℚ × ℚ)) (aw d : ℚ),
      (get_absorption_table raw 0 2 aw d).length
        = (pyInt (2 - 0)).toNat * 10 + 1) ∧
    (∀ j k, j < k → k < evNum 0 2 10 →
      (linspace 0 2 (evNum 0 2 10)).getD j 0
        < (linspace 0 2 (evNum 0 2 10)).getD k 0) ∧
    (∀ k, k + 1 < evNum 0 2 10 →
      (linspace 0 2 (evNum 0 2 10)).getD (k + 1) 0
        - (linspace 0 2 (evNum 0 2 10)).getD k 0
        = (2 - 0) / ((evNum 0 2 10 - 1 : Nat) : ℚ)) :=
  ev_linear_grid 0 2 10 (by norm_num)

/-- C7 counterexample: with `ev_low = 0`, `ev_high = 10.5`, `res = 10` the
grid has `int(10.5) * 10 + 1 = 101` points, not
`floor((10.5 - 0) * 10) + 1 = 106` as the claim states. -/
theorem ev_linear_count_mismatch :
    (ev_linear 0 (21/2) 10 2).length = 101 ∧
    (101 : ℤ) ≠ ⌊((21 : ℚ)/2 - 0) * 10⌋ + 1 := by
  constructor
  · rw [ev_linear, List.length_map, linspace, List.length_map, List.length_range]
    norm_num [evNum, pyInt]
    rfl
  · norm_num

end SolidAttenuator
